import Mathlib

/-!
# Verification of the Renom change/engine core

A shallow embedding of the apply/revert engine of the Renom renaming tool
(`src/engine.rs`, `src/changes/*.rs`): the `Change` data model, the
content-addressed backup store, the sequential executor with its history
stack, and the LIFO revert loop.

The filesystem is modelled as an association list from paths to UTF-8
file contents (the core only ever does whole-file reads and writes of
text files; the spec declares non-UTF-8 content out of scope).  Fallible
Rust operations (`io::Result`) become `Except String` or explicit result
inductives; a Rust panic (`expect`) is modelled as a third, `fatal`
outcome distinct from a propagated error.

External crates used by the core (`regex`, `sha2`, `rust-ini`) are not
part of this repository; the definitions standing in for them are marked
`Modelled from the spec:` and follow the specification text.
-/

set_option autoImplicit false

namespace Renom

/-- The filesystem: a finite map from paths to file contents, as an
association list.  Paths are plain strings. -/
structure FS where
  files : List (String × String)
deriving DecidableEq

/-- Read a file: `std::fs::read_to_string`.  Returns `none` when the file
does not exist. -/
def FS.read (fs : FS) (p : String) : Option String :=
  (fs.files.find? (fun e => e.1 == p)).map (fun e => e.2)

/-- Write a file: `std::fs::write` (create or truncate-and-overwrite). -/
def FS.write (fs : FS) (p c : String) : FS :=
  ⟨(p, c) :: fs.files.filter (fun e => !(e.1 == p))⟩

/-- Remove a file from the map (used to model the source side of a
filesystem rename). -/
def FS.eraseFile (fs : FS) (p : String) : FS :=
  ⟨fs.files.filter (fun e => !(e.1 == p))⟩

/-- `std::fs::rename`: fails when the source does not exist, otherwise
moves the content (overwriting any file at the destination). -/
def FS.rename (fs : FS) (src dst : String) : Option FS :=
  match fs.read src with
  | none => none
  | some c => some ((fs.eraseFile src).write dst c)

/-- The error string produced by a missing-file IO error
(`io::Error::to_string()` on Linux). -/
def ioErrNotFound : String := "No such file or directory (os error 2)"

/-! ## Change data model (`src/changes/*.rs`) -/

/-- `RenameFile { from, to }` (`from` and `to` are Lean keywords, hence
the underscore suffix; likewise `section` below). -/
structure RenameFile where
  from_ : String
  to_ : String
deriving DecidableEq

/-- `ReplaceInFile { path, from, to }`: `from` is a regex pattern, `to`
the replacement. -/
structure ReplaceInFile where
  path : String
  from_ : String
  to_ : String
deriving DecidableEq

/-- `SetIniEntry { path, section, key, value }`. -/
structure SetIniEntry where
  path : String
  section_ : String
  key : String
  value : String
deriving DecidableEq

/-- `AppendIniEntry { path, section, key, value }`. -/
structure AppendIniEntry where
  path : String
  section_ : String
  key : String
  value : String
deriving DecidableEq

/-- The closed set of mutation descriptions (`enum Change`). -/
inductive Change where
  | renameFile (params : RenameFile)
  | replaceInFile (params : ReplaceInFile)
  | setIniEntry (params : SetIniEntry)
  | appendIniEntry (params : AppendIniEntry)
deriving DecidableEq

/-- The undo action produced by a successful apply.  The source uses
boxed closures capturing exactly these values; per spec section 9 we
represent them as a small tagged union: the reverse rename, or copying
the backup file back onto the target. -/
inductive Revert where
  | reverseRename (after before : String)
  | restoreFromBackup (backup target : String)
deriving DecidableEq

/-- Interpret a revert action against the filesystem.  The reverse
rename runs `std::fs::rename(after, before)`; the backup restore runs
`std::fs::copy(backup, target)`. -/
def runRevert (fs : FS) : Revert → Except String FS
  | .reverseRename after before =>
    match fs.rename after before with
    | none => .error ioErrNotFound
    | some fs' => .ok fs'
  | .restoreFromBackup backup target =>
    match fs.read backup with
    | none => .error ioErrNotFound
    | some c => .ok (fs.write target c)

/-! ## Backup store and external-crate stand-ins -/

/-- One hexadecimal digit. -/
def hexDigit (d : Nat) : Char :=
  if d < 10 then Char.ofNat (48 + d) else Char.ofNat (87 + d)

/-- Modelled from the spec: stands in for the SHA-256 hex digest of the
`sha2` crate (external code).  The spec only requires a content-derived
key, so we use an injective hex encoding: each code point as six hex
digits. -/
def hexOfNat (n : Nat) : List Char :=
  [hexDigit (n / 1048576 % 16), hexDigit (n / 65536 % 16), hexDigit (n / 4096 % 16),
   hexDigit (n / 256 % 16), hexDigit (n / 16 % 16), hexDigit (n % 16)]

/-- Modelled from the spec: the content digest used to name backup
files. -/
def sha256Hex (s : String) : String :=
  String.mk ((s.data.map (fun c => hexOfNat c.toNat)).flatten)

/-- `backup_file` (`src/engine.rs`): read the file, hash its content,
write the content to `backup_dir/<digest>` and return that path. -/
def backup_file (fs : FS) (file backupDir : String) : Except String (FS × String) :=
  match fs.read file with
  | none => .error ioErrNotFound
  | some content =>
    let path := backupDir ++ "/" ++ sha256Hex content
    .ok (fs.write path content, path)

/-- Modelled from the spec: stands in for `Regex::new` succeeding
(external `regex` crate).  A simple syntactic validity check —
parentheses balanced — faithful to the crate on the patterns used here;
the engine only branches on compile success. -/
def regexValidAux : List Char → Nat → Bool
  | [], 0 => true
  | [], _ + 1 => false
  | c :: rest, d =>
    if c = '(' then regexValidAux rest (d + 1)
    else if c = ')' then
      match d with
      | 0 => false
      | d' + 1 => regexValidAux rest d'
    else regexValidAux rest d

/-- Modelled from the spec: regex pattern compilability. -/
def regexValid (p : String) : Bool :=
  regexValidAux p.data 0

/-- Fuel-driven replacement of every non-overlapping occurrence of a
pattern in a character list (the fuel is the input length, which always
suffices). -/
def replaceAllAux : Nat → List Char → List Char → List Char → List Char
  | 0, _, _, content => content
  | _ + 1, _, _, [] => []
  | fuel + 1, pat, repl, c :: rest =>
    if pat.isPrefixOf (c :: rest) && !pat.isEmpty then
      repl ++ replaceAllAux fuel pat repl ((c :: rest).drop pat.length)
    else c :: replaceAllAux fuel pat repl rest

/-- Modelled from the spec: stands in for `Regex::replace_all`
(external `regex` crate), restricted to literal patterns: replaces every
non-overlapping occurrence of the pattern. -/
def regexReplaceAll (pattern repl content : String) : String :=
  String.mk (replaceAllAux content.data.length pattern.data repl.data content.data)

/-! ## Apply operations (`src/engine.rs`) -/

/-- Result of one apply operation: success carries the filesystem after
the mutation and the revert action; a propagated error carries the
filesystem as left behind by the failed call (partial effects such as an
already-written backup file persist); `fatal` models a Rust panic. -/
inductive ApplyOut where
  | ok (fs : FS) (revert : Revert)
  | err (fs : FS) (e : String)
  | fatal (fs : FS) (msg : String)
deriving DecidableEq

/-- `rename_file` (`src/engine.rs` lines 69–76). -/
def rename_file (fs : FS) (params : RenameFile) : ApplyOut :=
  match fs.rename params.from_ params.to_ with
  | none => .err fs ioErrNotFound
  | some fs' => .ok fs' (.reverseRename params.to_ params.from_)

/-- `replace_in_file` (`src/engine.rs` lines 78–91): back up, read,
compile the pattern (panicking on an invalid one), replace all matches,
write back. -/
def replace_in_file (fs : FS) (params : ReplaceInFile) (backupDir : String) : ApplyOut :=
  match backup_file fs params.path backupDir with
  | .error e => .err fs e
  | .ok (fs1, before) =>
    match fs1.read params.path with
    | none => .err fs1 ioErrNotFound
    | some content =>
      if regexValid params.from_ then
        .ok (fs1.write params.path (regexReplaceAll params.from_ params.to_ content))
          (.restoreFromBackup before params.path)
      else .fatal fs1 "invalid regex; coding error"

/-! ## INI documents

Modelled from the spec: the engine delegates INI handling to the
external `rust-ini` crate.  Per spec section 6, an INI file is a
sequence of named sections of `key=value` lines, preceded by an optional
unnamed general section; a value may be a quoted string whose quotes
round-trip unchanged when the entry is untouched, and a key may repeat
to hold multiple values.  We therefore keep each value verbatim
(including any quotes) and keep properties as an ordered list admitting
repeated keys. -/

/-- An INI document: sections in file order, each a section name
(`none` for the unnamed general section) with an ordered, possibly
repeating property list. -/
abbrev IniDoc : Type := List (Option String × List (String × String))

/-- One line of an INI file, classified. -/
inductive IniLine where
  | blank
  | header (name : List Char)
  | prop (key value : List Char)
  | bad
deriving DecidableEq

/-- Split a character stream into lines at every newline. -/
def splitLines : List Char → List (List Char)
  | [] => [[]]
  | c :: rest =>
    if c = '\n' then [] :: splitLines rest
    else
      match splitLines rest with
      | [] => [[c]]
      | l :: ls => (c :: l) :: ls

/-- Modelled from the spec: classify one INI line.  `[name]` is a
section header; otherwise the text before the first `=` is the key and
the text after it, verbatim (quotes included), is the value. -/
def parseLine : List Char → IniLine
  | [] => .blank
  | c :: rest =>
    if c = '[' then
      if rest.getLast? = some ']' then .header rest.dropLast else .bad
    else
      match (c :: rest).dropWhile (fun x => x != '=') with
      | '=' :: v => .prop ((c :: rest).takeWhile (fun x => x != '=')) v
      | _ => .bad

/-- Add a property to the last (current) section of a document. -/
def addProp (doc : IniDoc) (k v : String) : IniDoc :=
  match doc with
  | [] => [(none, [(k, v)])]
  | [s] => [(s.1, s.2 ++ [(k, v)])]
  | s :: rest => s :: addProp rest k v

/-- Modelled from the spec: parse INI lines into a document, in file
order, failing on a malformed line. -/
def parseLinesAux : List (List Char) → IniDoc → Except String IniDoc
  | [], doc => .ok doc
  | l :: ls, doc =>
    match parseLine l with
    | .blank => parseLinesAux ls doc
    | .header n => parseLinesAux ls (doc ++ [(some (String.mk n), [])])
    | .prop k v => parseLinesAux ls (addProp doc (String.mk k) (String.mk v))
    | .bad => .error ("invalid line: " ++ String.mk l)

/-- Modelled from the spec: `Ini::load_from_str` — parse a whole file
content into a document (the general section first). -/
def parseIni (content : String) : Except String IniDoc :=
  parseLinesAux (splitLines content.data) [(none, [])]

/-- Serialize one property list back to characters, one
`key=value` line each, values verbatim. -/
def propsChars (ps : List (String × String)) : List Char :=
  (ps.map (fun kv => kv.1.data ++ '=' :: kv.2.data ++ ['\n'])).flatten

/-- Serialize one section: optional `[name]` header then its
properties. -/
def sectionChars : Option String × List (String × String) → List Char
  | (none, ps) => propsChars ps
  | (some n, ps) => '[' :: n.data ++ ']' :: '\n' :: propsChars ps

/-- Modelled from the spec: `Ini::write_to_file` — serialize the whole
document in order. -/
def serializeIni (doc : IniDoc) : String :=
  String.mk ((doc.map sectionChars).flatten)

/-- Look up the first section with the given name. -/
def iniGetSection (doc : IniDoc) (s : Option String) : Option (List (String × String)) :=
  (doc.find? (fun sec => sec.1 == s)).map (fun sec => sec.2)

/-- Modify the first section with the given name, creating it at the
end of the document when absent (how `with_section` ensures a
section). -/
def iniModify (doc : IniDoc) (s : Option String)
    (f : List (String × String) → List (String × String)) : IniDoc :=
  match doc with
  | [] => [(s, f [])]
  | sec :: rest =>
    if sec.1 == s then (sec.1, f sec.2) :: rest
    else sec :: iniModify rest s f

/-- Modelled from the spec: `with_section(s).set(k, v)` of `rust-ini` —
ensure the section exists, drop every existing value under `k`, and add
the single value `v`. -/
def iniSet (doc : IniDoc) (s : Option String) (k v : String) : IniDoc :=
  iniModify doc s (fun ps => ps.filter (fun kv => !(kv.1 == k)) ++ [(k, v)])

/-- Modelled from the spec: `Properties::append(k, v)` of `rust-ini` —
add one more value under `k`, leaving existing values intact.  Only
invoked on a section that exists; absent sections are left untouched
(the engine guards this case with a panic). -/
def iniAppend (doc : IniDoc) (s : Option String) (k v : String) : IniDoc :=
  match doc with
  | [] => []
  | sec :: rest =>
    if sec.1 == s then (sec.1, sec.2 ++ [(k, v)]) :: rest
    else sec :: iniAppend rest s k v

/-- Modelled from the spec: `with_section(s).delete(k)` of `rust-ini` —
remove every value under `k` from the section. -/
def iniDelete (doc : IniDoc) (s : Option String) (k : String) : IniDoc :=
  match doc with
  | [] => []
  | sec :: rest =>
    if sec.1 == s then (sec.1, sec.2.filter (fun kv => !(kv.1 == k))) :: rest
    else sec :: iniDelete rest s k

/-- The document transformation `append_ini_entry` performs once the
file is loaded: ensure the section exists by setting a dummy key, append
the entry, delete the dummy key. -/
def appendIniPipeline (doc : IniDoc) (s k v : String) : IniDoc :=
  iniDelete (iniAppend (iniSet doc (some s) "dummy" "dummy") (some s) k v) (some s) "dummy"

/-- `set_ini_entry` (`src/engine.rs` lines 93–112): back up, load the
INI document (propagating IO and parse errors), set the entry, write
back. -/
def set_ini_entry (fs : FS) (params : SetIniEntry) (backupDir : String) : ApplyOut :=
  match backup_file fs params.path backupDir with
  | .error e => .err fs e
  | .ok (fs1, before) =>
    match fs1.read params.path with
    | none => .err fs1 ioErrNotFound
    | some content =>
      match parseIni content with
      | .error p => .err fs1 p
      | .ok ini =>
        let ini1 := iniSet ini (some params.section_) params.key params.value
        .ok (fs1.write params.path (serializeIni ini1))
          (.restoreFromBackup before params.path)

/-- `append_ini_entry` (`src/engine.rs` lines 114–137): back up, load
the INI document, create the section via the set-a-dummy-key trick,
append the entry, delete the dummy key, write back.  The
`section_mut(..).expect(..)` in the source is the `fatal` branch. -/
def append_ini_entry (fs : FS) (params : AppendIniEntry) (backupDir : String) : ApplyOut :=
  match backup_file fs params.path backupDir with
  | .error e => .err fs e
  | .ok (fs1, before) =>
    match fs1.read params.path with
    | none => .err fs1 ioErrNotFound
    | some content =>
      match parseIni content with
      | .error p => .err fs1 p
      | .ok ini =>
        let ini1 := iniSet ini (some params.section_) "dummy" "dummy"
        match iniGetSection ini1 (some params.section_) with
        | none => .fatal fs1 "ini section missing after create"
        | some _ =>
          let ini2 := iniAppend ini1 (some params.section_) params.key params.value
          let ini3 := iniDelete ini2 (some params.section_) "dummy"
          .ok (fs1.write params.path (serializeIni ini3))
            (.restoreFromBackup before params.path)

/-! ## Engine (`src/engine.rs` lines 17–66) -/

/-- The engine together with the world it mutates: the history stack
(`Vec<(Change, Revert)>`, oldest first) and the filesystem the real
engine reaches through IO. -/
structure Engine where
  fs : FS
  history : List (Change × Revert)
deriving DecidableEq

/-- Dispatch of `Engine::execute_single` / `Change::apply` on the change
variant. -/
def applyChange (fs : FS) (change : Change) (backupDir : String) : ApplyOut :=
  match change with
  | .renameFile params => rename_file fs params
  | .replaceInFile params => replace_in_file fs params backupDir
  | .setIniEntry params => set_ini_entry fs params backupDir
  | .appendIniEntry params => append_ini_entry fs params backupDir

/-- Result of `Engine::execute`: the final engine/world state, plus the
propagated error string on failure (`Result<(), String>`); `fatal`
models a panic unwinding out of the loop. -/
inductive ExecResult where
  | ok (st : Engine)
  | err (st : Engine) (e : String)
  | fatal (st : Engine) (msg : String)
deriving DecidableEq

/-- `Engine::execute`: apply each change in order; on success push
`(change, revert)` onto history and continue; on the first failure stop
and return the error string. -/
def execute (st : Engine) (changeset : List Change) (backupDir : String) : ExecResult :=
  match changeset with
  | [] => .ok st
  | c :: rest =>
    match applyChange st.fs c backupDir with
    | .ok fs' r => execute ⟨fs', st.history ++ [(c, r)]⟩ rest backupDir
    | .err fs' e => .err ⟨fs', st.history⟩ e
    | .fatal fs' m => .fatal ⟨fs', st.history⟩ m

/-- The revert loop of `Engine::revert`, acting on the history stack
newest-first (the order `Vec::pop` yields).  Returns the filesystem, the
entries still on the stack (newest-first), the changes whose revert was
invoked in invocation order (the `Revert: ..` log lines), and the error
of the first failing revert action.  The failing entry itself has
already been popped. -/
def revertList : FS → List (Change × Revert) → FS × List (Change × Revert) × List Change × Option String
  | fs, [] => (fs, [], [], none)
  | fs, (c, r) :: rest =>
    match runRevert fs r with
    | .ok fs' =>
      let (fs'', rem, tr, e) := revertList fs' rest
      (fs'', rem, c :: tr, e)
    | .error e => (fs, rest, [c], some e)

/-- `Engine::revert`: pop the whole history LIFO, running each revert
action; halt at the first failure.  Returns the new state, the invoked
changes in order, and the error if any. -/
def Engine.revert (st : Engine) : Engine × List Change × Option String :=
  match revertList st.fs st.history.reverse with
  | (fs', rem, tr, e) => (⟨fs', rem.reverse⟩, tr, e)

/-- The file a change mutates in place (`none` for the rename, which
needs no backup). -/
def Change.targetPath? : Change → Option String
  | .renameFile _ => none
  | .replaceInFile params => some params.path
  | .setIniEntry params => some params.path
  | .appendIniEntry params => some params.path

/-! ## Well-formed INI data

Side conditions under which serialization round-trips: a key has no
newline, no `=`, and does not begin like a section header; a value and a
section name have no newline.  Every document produced by `parseIni`
satisfies them. -/

/-- A key that survives a serialize/parse round trip. -/
def WfKey (k : String) : Prop :=
  '\n' ∉ k.data ∧ '=' ∉ k.data ∧ k.data.head? ≠ some '['

/-- A value that survives a serialize/parse round trip (quotes and `=`
are fine; only a newline would split the line). -/
def WfVal (v : String) : Prop :=
  '\n' ∉ v.data

/-- A section name that survives a serialize/parse round trip. -/
def WfName (n : String) : Prop :=
  '\n' ∉ n.data

/-- All properties of a section are well-formed. -/
def WfSec (sec : Option String × List (String × String)) : Prop :=
  ∀ kv ∈ sec.2, WfKey kv.1 ∧ WfVal kv.2

/-- The named sections after the general one: each has a well-formed
name and well-formed properties. -/
def WfTail (rest : IniDoc) : Prop :=
  ∀ sec ∈ rest, (∃ n, sec.1 = some n ∧ WfName n) ∧ WfSec sec

/-- A document as produced by `parseIni`: the unnamed general section
first, then named sections, all well-formed. -/
def WfDoc : IniDoc → Prop
  | [] => False
  | sec0 :: rest => sec0.1 = none ∧ WfSec sec0 ∧ WfTail rest

instance : DecidablePred WfKey := fun k => by
  unfold WfKey
  infer_instance

instance : DecidablePred WfVal := fun v => by
  unfold WfVal
  infer_instance

instance : DecidablePred WfName := fun n => by
  unfold WfName
  infer_instance

instance : DecidablePred WfSec := fun sec => by
  unfold WfSec
  have : DecidablePred (fun kv : String × String => WfKey kv.1 ∧ WfVal kv.2) := by
    intro kv
    exact instDecidableAnd
  infer_instance

instance : DecidablePred WfTail := fun rest => by
  unfold WfTail
  have : ∀ sec : Option String × List (String × String),
      Decidable ((∃ n, sec.1 = some n ∧ WfName n) ∧ WfSec sec) := by
    intro sec
    have : Decidable (∃ n, sec.1 = some n ∧ WfName n) := by
      match sec with
      | (none, ps) => exact isFalse (by simp)
      | (some n, ps) =>
        exact decidable_of_iff (WfName n) (by simp [WfName])
    exact instDecidableAnd
  infer_instance

instance : ∀ doc : IniDoc, Decidable (WfDoc doc) := fun doc => by
  match doc with
  | [] => exact isFalse (by simp [WfDoc])
  | sec0 :: rest =>
    unfold WfDoc
    infer_instance

deriving instance DecidableEq for Except

/-! ## Filesystem lemmas -/

theorem find?_filter_of_ne (l : List (String × String)) (p q : String) (h : q ≠ p) :
    (l.filter (fun e => !(e.1 == p))).find? (fun e => e.1 == q)
      = l.find? (fun e => e.1 == q) := by
  induction l with
  | nil => rfl
  | cons a t ih =>
    obtain ⟨a1, a2⟩ := a
    by_cases hp : a1 = p
    · subst hp
      have h2 : (a1 == q) = false := beq_eq_false_iff_ne.mpr (fun e => h e.symm)
      simp [List.filter_cons, List.find?, h2, ih]
    · have h1 : (a1 == p) = false := beq_eq_false_iff_ne.mpr hp
      by_cases hq : a1 = q
      · subst hq
        simp [List.filter_cons, List.find?, h1]
      · have h2 : (a1 == q) = false := beq_eq_false_iff_ne.mpr hq
        simp [List.filter_cons, List.find?, h1, h2, ih]

theorem FS.read_write_self (fs : FS) (p c : String) :
    (fs.write p c).read p = some c := by
  simp [FS.read, FS.write, List.find?]

theorem FS.read_write_of_ne (fs : FS) (p c q : String) (h : q ≠ p) :
    (fs.write p c).read q = fs.read q := by
  have hpq : (p == q) = false := by
    simp
    exact fun hq => h hq.symm
  simp [FS.read, FS.write, List.find?, hpq, find?_filter_of_ne fs.files p q h]

end Renom

namespace Renom

theorem execute_ok_history (pre : List Change) : ∀ (st st₁ : Engine) (bd : String),
    execute st pre bd = .ok st₁ →
    st₁.history.map Prod.fst = st.history.map Prod.fst ++ pre := by
  induction pre with
  | nil =>
    intro st st₁ bd h
    simp [execute] at h
    simp [← h]
  | cons c rest ih =>
    intro st st₁ bd h
    cases happ : applyChange st.fs c bd with
    | ok fs' r =>
      simp only [execute, happ] at h
      have := ih ⟨fs', st.history ++ [(c, r)]⟩ st₁ bd h
      simpa using this
    | err fs' e =>
      simp only [execute, happ] at h
      cases h
    | fatal fs' m =>
      simp only [execute, happ] at h
      cases h

theorem execute_append_err (pre : List Change) : ∀ (st st₁ : Engine) (c : Change)
    (post : List Change) (bd : String) (fs' : FS) (e : String),
    execute st pre bd = .ok st₁ →
    applyChange st₁.fs c bd = .err fs' e →
    execute st (pre ++ c :: post) bd = .err ⟨fs', st₁.history⟩ e := by
  induction pre with
  | nil =>
    intro st st₁ c post bd fs' e hpre hfail
    simp [execute] at hpre
    subst hpre
    simp [execute, hfail]
  | cons a rest ih =>
    intro st st₁ c post bd fs' e hpre hfail
    cases happ : applyChange st.fs a bd with
    | ok f r =>
      simp only [execute, happ] at hpre
      simp only [List.cons_append, execute, happ]
      exact ih ⟨f, st.history ++ [(a, r)]⟩ st₁ c post bd fs' e hpre hfail
    | err f e2 =>
      simp only [execute, happ] at hpre
      cases hpre
    | fatal f m =>
      simp only [execute, happ] at hpre
      cases hpre

end Renom

namespace Renom

/-- **C1.**  For every changeset where the changes of the first segment
all apply and the next change fails, execute applies the first segment
to disk and pushes it onto History in order, returns the error of the
failing change, and none of the failing or later changes are applied:
the result of the whole run equals the error state reached at the
failure, independent of the remaining changes. -/
theorem execute_halt_on_failure (st : Engine) (pre : List Change) (c : Change)
    (post : List Change) (bd : String) (st₁ : Engine) (fs' : FS) (e : String)
    (hpre : execute st pre bd = .ok st₁)
    (hfail : applyChange st₁.fs c bd = .err fs' e) :
    execute st (pre ++ c :: post) bd = .err ⟨fs', st₁.history⟩ e ∧
    st₁.history.map Prod.fst = st.history.map Prod.fst ++ pre :=
  ⟨execute_append_err pre st st₁ c post bd fs' e hpre hfail,
   execute_ok_history pre st st₁ bd hpre⟩

theorem execute_halt_on_failure_witness :
    execute ⟨⟨[("g", "x")]⟩, []⟩
        ([Change.renameFile ⟨"g", "h"⟩]
          ++ Change.replaceInFile ⟨"f", "a", "b"⟩ :: [Change.renameFile ⟨"u", "v"⟩]) "bk"
      = .err ⟨⟨[("h", "x")]⟩, [(Change.renameFile ⟨"g", "h"⟩, Revert.reverseRename "h" "g")]⟩
          ioErrNotFound ∧
    List.map Prod.fst [(Change.renameFile ⟨"g", "h"⟩, Revert.reverseRename "h" "g")]
      = List.map Prod.fst ([] : List (Change × Revert)) ++ [Change.renameFile ⟨"g", "h"⟩] :=
  execute_halt_on_failure ⟨⟨[("g", "x")]⟩, []⟩ [Change.renameFile ⟨"g", "h"⟩]
    (Change.replaceInFile ⟨"f", "a", "b"⟩) [Change.renameFile ⟨"u", "v"⟩] "bk"
    ⟨⟨[("h", "x")]⟩, [(Change.renameFile ⟨"g", "h"⟩, Revert.reverseRename "h" "g")]⟩
    ⟨[("h", "x")]⟩ ioErrNotFound (by decide) (by decide)

/-- **C4 counterexample.**  Two executions that fail at different
positions (index 0 and index 1) with different failing changes return
the identical error value — the bare IO error string — so the return
value of execute cannot identify the failing change or its position. -/
theorem execute_return_value_counterexample :
    execute ⟨⟨[]⟩, []⟩ [Change.replaceInFile ⟨"f", "a", "b"⟩] "bk"
      = .err ⟨⟨[]⟩, []⟩ ioErrNotFound ∧
    execute ⟨⟨[("g", "x")]⟩, []⟩
        [Change.renameFile ⟨"g", "h"⟩, Change.setIniEntry ⟨"f", "s", "k", "v"⟩] "bk"
      = .err ⟨⟨[("h", "x")]⟩, [(Change.renameFile ⟨"g", "h"⟩, Revert.reverseRename "h" "g")]⟩
          ioErrNotFound ∧
    Change.replaceInFile ⟨"f", "a", "b"⟩ ≠ Change.setIniEntry ⟨"f", "s", "k", "v"⟩ := by
  refine ⟨by decide, by decide, by decide⟩

/-- **C4 (amended).**  When a change fails, execute returns merely the
first error as a string; the failing change and its position are not in
the return value, while the partial history of applied changes remains
in the Engine. -/
theorem execute_error_is_string_only (st : Engine) (pre : List Change) (c : Change)
    (post : List Change) (bd : String) (st₁ : Engine) (fs' : FS) (e : String)
    (hpre : execute st pre bd = .ok st₁)
    (hfail : applyChange st₁.fs c bd = .err fs' e) :
    ∃ st₂, execute st (pre ++ c :: post) bd = .err st₂ e ∧ st₂.history = st₁.history :=
  ⟨⟨fs', st₁.history⟩, execute_append_err pre st st₁ c post bd fs' e hpre hfail, rfl⟩

theorem execute_error_is_string_only_witness :
    ∃ st₂, execute ⟨⟨[("g", "x")]⟩, []⟩
        ([Change.renameFile ⟨"g", "h"⟩] ++ Change.setIniEntry ⟨"f", "s", "k", "v"⟩ :: []) "bk"
      = .err st₂ ioErrNotFound ∧
      st₂.history = [(Change.renameFile ⟨"g", "h"⟩, Revert.reverseRename "h" "g")] :=
  execute_error_is_string_only ⟨⟨[("g", "x")]⟩, []⟩ [Change.renameFile ⟨"g", "h"⟩]
    (Change.setIniEntry ⟨"f", "s", "k", "v"⟩) [] "bk"
    ⟨⟨[("h", "x")]⟩, [(Change.renameFile ⟨"g", "h"⟩, Revert.reverseRename "h" "g")]⟩
    ⟨[("h", "x")]⟩ ioErrNotFound (by decide) (by decide)

theorem revertList_trace (l : List (Change × Revert)) : ∀ (fs fs' : FS)
    (rem : List (Change × Revert)) (tr : List Change) (e : Option String),
    revertList fs l = (fs', rem, tr, e) →
    (∃ rest, tr ++ rest = l.map Prod.fst) ∧
    (e = none → tr = l.map Prod.fst ∧ rem = []) := by
  induction l with
  | nil =>
    intro fs fs' rem tr e h
    simp [revertList] at h
    obtain ⟨h1, h2, h3, h4⟩ := h
    subst h2; subst h3; subst h4
    simp
  | cons p t ih =>
    obtain ⟨c, r⟩ := p
    intro fs fs' rem tr e h
    cases hr : runRevert fs r with
    | ok f2 =>
      rcases h2 : revertList f2 t with ⟨f3, rem3, tr3, e3⟩
      simp only [revertList, hr, h2, Prod.mk.injEq] at h
      obtain ⟨ha, hb, hc, hd⟩ := h
      subst hb; subst hc; subst hd
      obtain ⟨⟨rest, hrest⟩, hnone⟩ := ih f2 f3 rem3 tr3 e3 h2
      constructor
      · exact ⟨rest, by simp [← hrest]⟩
      · intro he
        obtain ⟨htr, hrem⟩ := hnone he
        simp [htr, hrem]
    | error e2 =>
      simp only [revertList, hr, Prod.mk.injEq] at h
      obtain ⟨ha, hb, hc, hd⟩ := h
      subst hb; subst hc; subst hd
      constructor
      · exact ⟨t.map Prod.fst, by simp⟩
      · intro he
        cases he

/-- **C2.**  Engine::revert processes History strictly back-to-front:
the sequence of invoked revert actions is an initial segment of the
reverse of the application order recorded in History, and when no revert
fails it is exactly that reversal, never reordered, emptying History. -/
theorem revert_processes_history_lifo (st st' : Engine) (tr : List Change) (e? : Option String)
    (h : st.revert = (st', tr, e?)) :
    (∃ rest, tr ++ rest = (st.history.map Prod.fst).reverse) ∧
    (e? = none → tr = (st.history.map Prod.fst).reverse ∧ st'.history = []) := by
  unfold Engine.revert at h
  rcases h2 : revertList st.fs st.history.reverse with ⟨f3, rem3, tr3, e3⟩
  rw [h2] at h
  simp only [Prod.mk.injEq] at h
  obtain ⟨ha, hb, hc⟩ := h
  subst hb; subst hc
  obtain ⟨⟨rest, hrest⟩, hnone⟩ := revertList_trace st.history.reverse st.fs f3 rem3 tr3 e3 h2
  rw [List.map_reverse] at hrest hnone
  constructor
  · exact ⟨rest, hrest⟩
  · intro he
    obtain ⟨htr, hrem⟩ := hnone he
    refine ⟨htr, ?_⟩
    rw [← ha]
    simp [hrem]

theorem revert_processes_history_lifo_witness :
    (∃ rest, [Change.setIniEntry ⟨"f", "s", "k", "v"⟩, Change.renameFile ⟨"a", "b"⟩] ++ rest
        = (List.map Prod.fst
            [(Change.renameFile ⟨"a", "b"⟩, Revert.restoreFromBackup "b1" "t1"),
             (Change.setIniEntry ⟨"f", "s", "k", "v"⟩, Revert.restoreFromBackup "b2" "t2")]).reverse) ∧
    ((none : Option String) = none →
      [Change.setIniEntry ⟨"f", "s", "k", "v"⟩, Change.renameFile ⟨"a", "b"⟩]
        = (List.map Prod.fst
            [(Change.renameFile ⟨"a", "b"⟩, Revert.restoreFromBackup "b1" "t1"),
             (Change.setIniEntry ⟨"f", "s", "k", "v"⟩, Revert.restoreFromBackup "b2" "t2")]).reverse ∧
      (⟨⟨[("t1", "c1"), ("t2", "c2"), ("b1", "c1"), ("b2", "c2")]⟩, []⟩ : Engine).history = []) :=
  revert_processes_history_lifo
    ⟨⟨[("b1", "c1"), ("b2", "c2")]⟩,
     [(Change.renameFile ⟨"a", "b"⟩, Revert.restoreFromBackup "b1" "t1"),
      (Change.setIniEntry ⟨"f", "s", "k", "v"⟩, Revert.restoreFromBackup "b2" "t2")]⟩
    ⟨⟨[("t1", "c1"), ("t2", "c2"), ("b1", "c1"), ("b2", "c2")]⟩, []⟩
    [Change.setIniEntry ⟨"f", "s", "k", "v"⟩, Change.renameFile ⟨"a", "b"⟩] none (by decide)

theorem revertList_append_of_ok (A : List (Change × Revert)) : ∀ (fs fs₁ : FS)
    (trA : List Change) (B : List (Change × Revert)) (f2 : FS)
    (rem2 : List (Change × Revert)) (tr2 : List Change) (e2 : Option String),
    revertList fs A = (fs₁, [], trA, none) →
    revertList fs₁ B = (f2, rem2, tr2, e2) →
    revertList fs (A ++ B) = (f2, rem2, trA ++ tr2, e2) := by
  induction A with
  | nil =>
    intro fs fs₁ trA B f2 rem2 tr2 e2 hA hB
    simp only [revertList, Prod.mk.injEq] at hA
    obtain ⟨ha, hb, hc, hd⟩ := hA
    subst ha; subst hc
    simpa using hB
  | cons p t ih =>
    obtain ⟨c, r⟩ := p
    intro fs fs₁ trA B f2 rem2 tr2 e2 hA hB
    cases hr : runRevert fs r with
    | ok f3 =>
      rcases h2 : revertList f3 t with ⟨f4, rem4, tr4, e4⟩
      simp only [revertList, hr, h2, Prod.mk.injEq] at hA
      obtain ⟨ha, hb, hc, hd⟩ := hA
      subst ha; subst hb; subst hd
      have h3 := ih f3 f4 tr4 B f2 rem2 tr2 e2 h2 hB
      simp only [List.cons_append, revertList, hr, h3]
      simp [h3, ← hc]
    | error e3 =>
      simp only [revertList, hr, Prod.mk.injEq] at hA
      exact Option.noConfusion hA.2.2.2

/-- **C8.**  When the first failing revert action is reached (all newer
history entries reverted successfully), Engine::revert stops
immediately, returns that error, and every History entry older than the
failing one remains in History, its files untouched by this revert
call: the resulting filesystem is exactly the one produced by the newer
reverts alone. -/
theorem revert_stops_at_first_failure (st : Engine) (pre : List (Change × Revert)) (c : Change)
    (r : Revert) (post : List (Change × Revert)) (fs₁ : FS) (tr : List Change) (e : String)
    (hh : st.history = pre ++ (c, r) :: post)
    (hpost : revertList st.fs post.reverse = (fs₁, [], tr, none))
    (hfail : runRevert fs₁ r = .error e) :
    st.revert = (⟨fs₁, pre⟩, tr ++ [c], some e) := by
  unfold Engine.revert
  have hrev : st.history.reverse = post.reverse ++ (c, r) :: pre.reverse := by
    rw [hh]
    simp
  rw [hrev]
  have hB : revertList fs₁ ((c, r) :: pre.reverse) = (fs₁, pre.reverse, [c], some e) := by
    simp [revertList, hfail]
  rw [revertList_append_of_ok post.reverse st.fs fs₁ tr ((c, r) :: pre.reverse)
    fs₁ pre.reverse [c] (some e) hpost hB]
  simp

theorem revert_stops_at_first_failure_witness :
    (⟨⟨[("b2", "c2")]⟩,
      [(Change.renameFile ⟨"x", "y"⟩, Revert.reverseRename "y" "x"),
       (Change.replaceInFile ⟨"t", "a", "b"⟩, Revert.restoreFromBackup "missing" "t"),
       (Change.setIniEntry ⟨"t2", "s", "k", "v"⟩, Revert.restoreFromBackup "b2" "t2")]⟩ : Engine).revert
      = (⟨⟨[("t2", "c2"), ("b2", "c2")]⟩,
          [(Change.renameFile ⟨"x", "y"⟩, Revert.reverseRename "y" "x")]⟩,
         [Change.setIniEntry ⟨"t2", "s", "k", "v"⟩, Change.replaceInFile ⟨"t", "a", "b"⟩],
         some ioErrNotFound) :=
  revert_stops_at_first_failure
    ⟨⟨[("b2", "c2")]⟩,
     [(Change.renameFile ⟨"x", "y"⟩, Revert.reverseRename "y" "x"),
      (Change.replaceInFile ⟨"t", "a", "b"⟩, Revert.restoreFromBackup "missing" "t"),
      (Change.setIniEntry ⟨"t2", "s", "k", "v"⟩, Revert.restoreFromBackup "b2" "t2")]⟩
    [(Change.renameFile ⟨"x", "y"⟩, Revert.reverseRename "y" "x")]
    (Change.replaceInFile ⟨"t", "a", "b"⟩) (Revert.restoreFromBackup "missing" "t")
    [(Change.setIniEntry ⟨"t2", "s", "k", "v"⟩, Revert.restoreFromBackup "b2" "t2")]
    ⟨[("t2", "c2"), ("b2", "c2")]⟩
    [Change.setIniEntry ⟨"t2", "s", "k", "v"⟩] ioErrNotFound
    (by decide) (by decide) (by decide)


theorem FS.read_write_write_self (fs : FS) (bk c path n : String) (h : bk ≠ path) :
    ((fs.write bk c).write path n).read bk = some c := by
  rw [FS.read_write_of_ne _ path n bk h, FS.read_write_self]

/-- **C7.**  For every ReplaceInFile, SetIniEntry or AppendIniEntry
apply, the backup snapshot is taken, and succeeds, strictly before the
mutation: if the snapshot step fails the filesystem (in particular the
target file) is completely untouched, and on success the backup file
holds the pre-mutation content of the target. -/
theorem backup_before_mutation (c : Change) (fs : FS) (bd path : String)
    (htp : c.targetPath? = some path) :
    (fs.read path = none → applyChange fs c bd = .err fs ioErrNotFound) ∧
    (∀ content fs' r, fs.read path = some content →
      bd ++ "/" ++ sha256Hex content ≠ path →
      applyChange fs c bd = .ok fs' r →
      fs'.read (bd ++ "/" ++ sha256Hex content) = some content) := by
  cases c with
  | renameFile params =>
    simp [Change.targetPath?] at htp
  | replaceInFile params =>
    have hp : params.path = path := by simpa [Change.targetPath?] using htp
    subst hp
    constructor
    · intro hnone
      simp [applyChange, replace_in_file, backup_file, hnone]
    · intro content fs' r hsome hne happ
      simp only [applyChange, replace_in_file, backup_file, hsome] at happ
      rw [FS.read_write_of_ne fs (bd ++ "/" ++ sha256Hex content) content params.path
        (fun h => hne h.symm), hsome] at happ
      cases hv : regexValid params.from_ with
      | true =>
        simp only [hv, if_true, ApplyOut.ok.injEq] at happ
        rw [← happ.1]
        exact FS.read_write_write_self fs _ content params.path _ hne
      | false =>
        simp [hv] at happ
  | setIniEntry params =>
    have hp : params.path = path := by simpa [Change.targetPath?] using htp
    subst hp
    constructor
    · intro hnone
      simp [applyChange, set_ini_entry, backup_file, hnone]
    · intro content fs' r hsome hne happ
      simp only [applyChange, set_ini_entry, backup_file, hsome] at happ
      rw [FS.read_write_of_ne fs (bd ++ "/" ++ sha256Hex content) content params.path
        (fun h => hne h.symm), hsome] at happ
      cases hpi : parseIni content with
      | error p =>
        simp [hpi] at happ
      | ok ini =>
        simp only [hpi, ApplyOut.ok.injEq] at happ
        rw [← happ.1]
        exact FS.read_write_write_self fs _ content params.path _ hne
  | appendIniEntry params =>
    have hp : params.path = path := by simpa [Change.targetPath?] using htp
    subst hp
    constructor
    · intro hnone
      simp [applyChange, append_ini_entry, backup_file, hnone]
    · intro content fs' r hsome hne happ
      simp only [applyChange, append_ini_entry, backup_file, hsome] at happ
      rw [FS.read_write_of_ne fs (bd ++ "/" ++ sha256Hex content) content params.path
        (fun h => hne h.symm), hsome] at happ
      cases hpi : parseIni content with
      | error p =>
        simp [hpi] at happ
      | ok ini =>
        simp only [hpi] at happ
        cases hg : iniGetSection (iniSet ini (some params.section_) "dummy" "dummy")
            (some params.section_) with
        | none =>
          simp [hg] at happ
        | some ps =>
          simp only [hg, ApplyOut.ok.injEq] at happ
          rw [← happ.1]
          exact FS.read_write_write_self fs _ content params.path _ hne

theorem backup_before_mutation_witness :
    applyChange ⟨[]⟩ (Change.replaceInFile ⟨"f", "a", "b"⟩) "bk" = .err ⟨[]⟩ ioErrNotFound :=
  (backup_before_mutation (Change.replaceInFile ⟨"f", "a", "b"⟩) ⟨[]⟩ "bk" "f" rfl).1 rfl

/-- **C3.**  For every ReplaceInFile on an existing (UTF-8) file,
applying the change and then invoking the returned revert action leaves
the file content byte-for-byte equal to the pre-apply content (provided
the pattern compiles and the content-addressed backup path does not
collide with the target path itself). -/
theorem replace_round_trip (fs : FS) (params : ReplaceInFile) (bd content : String)
    (hread : fs.read params.path = some content)
    (hvalid : regexValid params.from_ = true)
    (hnc : bd ++ "/" ++ sha256Hex content ≠ params.path) :
    ∃ fs' r fs'', replace_in_file fs params bd = .ok fs' r ∧
      runRevert fs' r = .ok fs'' ∧ fs''.read params.path = some content := by
  have h1 : replace_in_file fs params bd
      = .ok ((fs.write (bd ++ "/" ++ sha256Hex content) content).write params.path
              (regexReplaceAll params.from_ params.to_ content))
            (.restoreFromBackup (bd ++ "/" ++ sha256Hex content) params.path) := by
    simp only [replace_in_file, backup_file, hread]
    rw [FS.read_write_of_ne fs (bd ++ "/" ++ sha256Hex content) content params.path
      (fun h => hnc h.symm), hread]
    simp [hvalid]
  refine ⟨_, _,
    ((fs.write (bd ++ "/" ++ sha256Hex content) content).write params.path
        (regexReplaceAll params.from_ params.to_ content)).write params.path content,
    h1, ?_, ?_⟩
  · simp only [runRevert, FS.read_write_write_self fs _ content params.path _ hnc]
  · rw [FS.read_write_self]

theorem replace_round_trip_witness :
    ∃ fs' r fs'', replace_in_file ⟨[("f", "abc")]⟩ ⟨"f", "b", "z"⟩ "bk" = .ok fs' r ∧
      runRevert fs' r = .ok fs'' ∧ fs''.read "f" = some "abc" :=
  replace_round_trip ⟨[("f", "abc")]⟩ ⟨"f", "b", "z"⟩ "bk" "abc" rfl (by decide) (by decide)

/-- **C9 counterexample.**  An invalid pattern together with a missing
target file makes apply return a propagated Err (the IO error of the
backup step), refuting the claim that apply never returns an Err value
when the pattern is invalid. -/
theorem invalid_regex_err_counterexample :
    regexValid "(" = false ∧
    replace_in_file ⟨[]⟩ ⟨"f", "(", "x"⟩ "bk" = .err ⟨[]⟩ ioErrNotFound := by
  refine ⟨by decide, by decide⟩

/-- **C9 (amended).**  With an invalid pattern, replace_in_file never
succeeds and never reports the pattern as a propagated Err: once the
backup and read steps succeed it hits the fatal panic branch; and under
the precondition that the pattern compiles, the fatal branch is
unreachable. -/
theorem invalid_regex_is_fatal (fs : FS) (params : ReplaceInFile) (bd : String) :
    (regexValid params.from_ = false →
      (∀ fs' r, replace_in_file fs params bd ≠ .ok fs' r) ∧
      (∀ content, fs.read params.path = some content →
        replace_in_file fs params bd
          = .fatal (fs.write (bd ++ "/" ++ sha256Hex content) content)
              "invalid regex; coding error")) ∧
    (regexValid params.from_ = true →
      ∀ fs1 m, replace_in_file fs params bd ≠ .fatal fs1 m) := by
  constructor
  · intro hv
    constructor
    · intro fs' r
      cases hread : fs.read params.path with
      | none =>
        simp [replace_in_file, backup_file, hread]
      | some content =>
        simp only [replace_in_file, backup_file, hread]
        by_cases hbp : params.path = bd ++ "/" ++ sha256Hex content
        · rw [hbp, FS.read_write_self]
          simp [hv]
        · rw [FS.read_write_of_ne fs (bd ++ "/" ++ sha256Hex content) content params.path hbp,
            hread]
          simp [hv]
    · intro content hread
      simp only [replace_in_file, backup_file, hread]
      by_cases hbp : params.path = bd ++ "/" ++ sha256Hex content
      · rw [hbp, FS.read_write_self]
        simp [hv]
      · rw [FS.read_write_of_ne fs (bd ++ "/" ++ sha256Hex content) content params.path hbp,
          hread]
        simp [hv]
  · intro hv fs1 m
    cases hread : fs.read params.path with
    | none =>
      simp [replace_in_file, backup_file, hread]
    | some content =>
      simp only [replace_in_file, backup_file, hread]
      by_cases hbp : params.path = bd ++ "/" ++ sha256Hex content
      · rw [hbp, FS.read_write_self]
        simp [hv]
      · rw [FS.read_write_of_ne fs (bd ++ "/" ++ sha256Hex content) content params.path hbp,
          hread]
        simp [hv]

theorem invalid_regex_is_fatal_witness :
    replace_in_file ⟨[("f", "ab")]⟩ ⟨"f", "(", "x"⟩ "bk"
      = .fatal (FS.write ⟨[("f", "ab")]⟩ ("bk" ++ "/" ++ sha256Hex "ab") "ab")
          "invalid regex; coding error" :=
  ((invalid_regex_is_fatal ⟨[("f", "ab")]⟩ ⟨"f", "(", "x"⟩ "bk").1 (by decide)).2 "ab" rfl

end Renom

namespace Renom

/-! ## INI round-trip lemmas -/

theorem data_mk (l : List Char) : (String.mk l).data = l := rfl

theorem splitLines_no_newline : ∀ (cs : List Char), ∀ l ∈ splitLines cs, '\n' ∉ l := by
  intro cs
  induction cs with
  | nil =>
    intro l hl
    simp only [splitLines, List.mem_singleton] at hl
    subst hl
    simp
  | cons c rest ih =>
    intro l hl
    by_cases hc : c = '\n'
    · subst hc
      simp only [splitLines, if_pos rfl] at hl
      rcases List.mem_cons.mp hl with h | h
      · subst h
        simp
      · exact ih l h
    · simp only [splitLines, if_neg hc] at hl
      rcases hsp : splitLines rest with _ | ⟨l0, ls⟩
      · rw [hsp] at hl
        have h := List.mem_singleton.mp hl
        subst h
        intro hmem
        exact hc (List.mem_singleton.mp hmem).symm
      · rw [hsp] at hl
        rcases List.mem_cons.mp hl with h | h
        · subst h
          intro hmem
          rcases List.mem_cons.mp hmem with h2 | h2
          · exact hc h2.symm
          · exact ih l0 (hsp ▸ List.mem_cons_self l0 ls) h2
        · exact ih l (hsp ▸ List.mem_cons_of_mem l0 h)

theorem splitLines_cons_line : ∀ (line : List Char), '\n' ∉ line → ∀ (rest : List Char),
    splitLines (line ++ '\n' :: rest) = line :: splitLines rest := by
  intro line
  induction line with
  | nil =>
    intro _ rest
    simp [splitLines]
  | cons c t ih =>
    intro hnl rest
    have hc : c ≠ '\n' := fun h => hnl (by simp [h])
    have ht : '\n' ∉ t := fun h => hnl (List.mem_cons_of_mem c h)
    simp only [List.cons_append, splitLines, if_neg hc, List.append_eq, ih ht rest]

theorem takeWhile_append_eq : ∀ (k v : List Char), '=' ∉ k →
    (k ++ '=' :: v).takeWhile (fun x => x != '=') = k := by
  intro k
  induction k with
  | nil =>
    intro v _
    simp [List.takeWhile]
  | cons c t ih =>
    intro v hk
    have hc : c ≠ '=' := fun h => hk (by simp [h])
    have ht : '=' ∉ t := fun h => hk (List.mem_cons_of_mem c h)
    simp only [List.cons_append, List.takeWhile_cons]
    rw [if_pos (by simpa using hc)]
    rw [ih v ht]

theorem dropWhile_append_eq : ∀ (k v : List Char), '=' ∉ k →
    (k ++ '=' :: v).dropWhile (fun x => x != '=') = '=' :: v := by
  intro k
  induction k with
  | nil =>
    intro v _
    simp [List.dropWhile]
  | cons c t ih =>
    intro v hk
    have hc : c ≠ '=' := fun h => hk (by simp [h])
    have ht : '=' ∉ t := fun h => hk (List.mem_cons_of_mem c h)
    simp only [List.cons_append, List.dropWhile_cons]
    rw [if_pos (by simpa using hc)]
    exact ih v ht

theorem parseLine_prop_line (k v : List Char) (hk : '=' ∉ k) (hh : k.head? ≠ some '[') :
    parseLine (k ++ '=' :: v) = .prop k v := by
  cases k with
  | nil =>
    have h1 : List.takeWhile (fun x => x != '=') ('=' :: v) = [] := by
      simp [List.takeWhile_cons]
    have h2 : List.dropWhile (fun x => x != '=') ('=' :: v) = '=' :: v := by
      simp [List.dropWhile_cons]
    simp only [List.nil_append, parseLine, h1, h2]
    rw [if_neg (show ('=' : Char) ≠ '[' by decide)]
  | cons c t =>
    have hc : c ≠ '[' := by simpa using hh
    have h1 := takeWhile_append_eq (c :: t) v hk
    have h2 := dropWhile_append_eq (c :: t) v hk
    simp only [List.cons_append] at h1 h2
    simp only [List.cons_append, parseLine, if_neg hc, h1, h2]

theorem parseLine_header_line (n : List Char) : parseLine ('[' :: n ++ [']']) = .header n := by
  simp only [List.cons_append, parseLine, if_pos rfl]
  simp [List.dropLast_concat]


theorem mk_data (s : String) : String.mk s.data = s := by
  cases s
  rfl

theorem addProp_cons (a : Option String × List (String × String))
    (rest : IniDoc) (h : rest ≠ []) (k v : String) :
    addProp (a :: rest) k v = a :: addProp rest k v := by
  cases rest with
  | nil => exact absurd rfl h
  | cons b t => rfl

theorem addProp_append_last (D : IniDoc) (s : Option String)
    (ps : List (String × String)) (k v : String) :
    addProp (D ++ [(s, ps)]) k v = D ++ [(s, ps ++ [(k, v)])] := by
  induction D with
  | nil => rfl
  | cons a t ih =>
    rw [List.cons_append, addProp_cons a (t ++ [(s, ps)]) (by simp) k v, ih]
    rfl

theorem no_newline_prop_line (k v : String) (hk : WfKey k) (hv : WfVal v) :
    '\n' ∉ k.data ++ '=' :: v.data := by
  intro hmem
  rcases List.mem_append.mp hmem with h | h
  · exact hk.1 h
  · rcases List.mem_cons.mp h with h2 | h2
    · cases h2
    · exact hv h2

theorem parseLinesAux_props (ps : List (String × String)) :
    ∀ (cs : List Char) (D : IniDoc) (s : Option String) (ps0 : List (String × String)),
    (∀ kv ∈ ps, WfKey kv.1 ∧ WfVal kv.2) →
    parseLinesAux (splitLines (propsChars ps ++ cs)) (D ++ [(s, ps0)])
      = parseLinesAux (splitLines cs) (D ++ [(s, ps0 ++ ps)]) := by
  induction ps with
  | nil =>
    intro cs D s ps0 _
    simp [propsChars]
  | cons kv t ih =>
    intro cs D s ps0 hwf
    obtain ⟨k, v⟩ := kv
    obtain ⟨hk, hv⟩ := hwf (k, v) (List.mem_cons_self _ _)
    have hline : propsChars ((k, v) :: t) ++ cs
        = (k.data ++ '=' :: v.data) ++ '\n' :: (propsChars t ++ cs) := by
      simp [propsChars, List.append_assoc]
    rw [hline, splitLines_cons_line _ (no_newline_prop_line k v hk hv) _]
    have hpl : parseLine (k.data ++ '=' :: v.data) = .prop k.data v.data :=
      parseLine_prop_line k.data v.data hk.2.1 hk.2.2
    simp only [parseLinesAux, hpl, mk_data]
    rw [addProp_append_last D s ps0 k v]
    rw [ih (cs) (D) (s) (ps0 ++ [(k, v)]) (fun kv hm => hwf kv (List.mem_cons_of_mem _ hm))]
    simp

theorem parseLinesAux_sections (secs : IniDoc) :
    (∀ sec ∈ secs, (∃ n, sec.1 = some n ∧ WfName n) ∧ WfSec sec) →
    ∀ D : IniDoc,
    parseLinesAux (splitLines ((secs.map sectionChars).flatten)) D = .ok (D ++ secs) := by
  induction secs with
  | nil =>
    intro _ D
    simp [splitLines, parseLinesAux, parseLine]
  | cons sec t ih =>
    intro hwf D
    obtain ⟨⟨n, hn, hwn⟩, hwsec⟩ := hwf sec (List.mem_cons_self _ _)
    obtain ⟨nm, ps⟩ := sec
    simp only at hn
    subst hn
    have hshape : ((((some n, ps) :: t).map sectionChars).flatten : List Char)
        = ('[' :: n.data ++ [']']) ++ '\n' :: (propsChars ps ++ (t.map sectionChars).flatten) := by
      simp [sectionChars, List.append_assoc]
    have hnonl : '\n' ∉ '[' :: n.data ++ [']'] := by
      intro hmem
      rcases List.mem_cons.mp hmem with h | h
      · cases h
      · rcases List.mem_append.mp h with h2 | h2
        · exact hwn h2
        · exact absurd (List.mem_singleton.mp h2) (by decide)
    rw [hshape, splitLines_cons_line _ hnonl _]
    simp only [parseLinesAux, parseLine_header_line, mk_data]
    have hprops := parseLinesAux_props ps ((t.map sectionChars).flatten)
      (D) (some n) [] hwsec
    simp only [List.nil_append] at hprops
    rw [hprops]
    rw [ih (fun sec hm => hwf sec (List.mem_cons_of_mem _ hm)) (D ++ [(some n, ps)])]
    simp

/-- Serialization round trip: parsing the serialized form of a
well-formed document gives back the document. -/
theorem parse_serialize (doc : IniDoc) (h : WfDoc doc) : parseIni (serializeIni doc) = .ok doc := by
  cases doc with
  | nil => exact h.elim
  | cons sec0 rest =>
    obtain ⟨nm0, ps0⟩ := sec0
    obtain ⟨h0, hsec0, htail⟩ := h
    simp only at h0
    subst h0
    show parseLinesAux (splitLines (serializeIni ((none, ps0) :: rest)).data) [(none, [])] = _
    have hdata : (serializeIni ((none, ps0) :: rest)).data
        = propsChars ps0 ++ (rest.map sectionChars).flatten := by
      simp [serializeIni, sectionChars, data_mk]
    rw [hdata]
    have hprops := parseLinesAux_props ps0 ((rest.map sectionChars).flatten)
      [] none [] hsec0
    simp only [List.nil_append] at hprops
    rw [hprops]
    have hsecs := parseLinesAux_sections rest htail [(none, ps0)]
    rw [hsecs]
    simp


theorem wfTail_addProp (k v : String) (hk : WfKey k) (hv : WfVal v) :
    ∀ (rest : IniDoc), WfTail rest → rest ≠ [] → WfTail (addProp rest k v) := by
  intro rest
  induction rest with
  | nil =>
    intro _ hne
    exact absurd rfl hne
  | cons a t ih =>
    intro h _
    cases t with
    | nil =>
      intro sec hm
      rcases List.mem_singleton.mp hm with rfl
      obtain ⟨hn, hs⟩ := h a (List.mem_cons_self _ _)
      refine ⟨hn, ?_⟩
      intro kv hkv
      rcases List.mem_append.mp hkv with h2 | h2
      · exact hs kv h2
      · rcases List.mem_singleton.mp h2 with rfl
        exact ⟨hk, hv⟩
    | cons b t2 =>
      rw [addProp_cons a (b :: t2) (by simp) k v]
      intro sec hm
      rcases List.mem_cons.mp hm with h2 | h2
      · subst h2
        exact h sec (List.mem_cons_self _ _)
      · exact ih (fun s hs => h s (List.mem_cons_of_mem _ hs)) (by simp) sec h2

theorem wfDoc_addProp (acc : IniDoc) (k v : String) (h : WfDoc acc)
    (hk : WfKey k) (hv : WfVal v) : WfDoc (addProp acc k v) := by
  cases acc with
  | nil => exact h.elim
  | cons sec0 rest =>
    obtain ⟨nm0, ps0⟩ := sec0
    obtain ⟨h0, hsec0, htail⟩ := h
    simp only at h0
    subst h0
    cases rest with
    | nil =>
      refine ⟨rfl, ?_, ?_⟩
      · intro kv hkv
        rcases List.mem_append.mp hkv with h2 | h2
        · exact hsec0 kv h2
        · rcases List.mem_singleton.mp h2 with rfl
          exact ⟨hk, hv⟩
      · intro sec hm
        cases hm
    | cons b t =>
      rw [addProp_cons (none, ps0) (b :: t) (by simp) k v]
      exact ⟨rfl, hsec0, wfTail_addProp k v hk hv (b :: t) htail (by simp)⟩

theorem wfDoc_append_section (acc : IniDoc) (nm : String) (h : WfDoc acc) (hn : WfName nm) :
    WfDoc (acc ++ [(some nm, [])]) := by
  cases acc with
  | nil => exact h.elim
  | cons sec0 rest =>
    obtain ⟨nm0, ps0⟩ := sec0
    obtain ⟨h0, hsec0, htail⟩ := h
    simp only at h0
    subst h0
    refine ⟨rfl, hsec0, ?_⟩
    intro sec hm
    rcases List.mem_append.mp hm with h2 | h2
    · exact htail sec h2
    · rcases List.mem_singleton.mp h2 with rfl
      exact ⟨⟨nm, rfl, hn⟩, fun kv hkv => absurd hkv (by simp)⟩

theorem parseLine_prop_wf (l k v : List Char) (hl : '\n' ∉ l)
    (hp : parseLine l = .prop k v) :
    WfKey (String.mk k) ∧ WfVal (String.mk v) := by
  cases l with
  | nil =>
    cases hp
  | cons c rest =>
    by_cases hc : c = '['
    · simp only [parseLine, if_pos hc] at hp
      by_cases hg : rest.getLast? = some ']'
      · rw [if_pos hg] at hp
        cases hp
      · rw [if_neg hg] at hp
        cases hp
    · simp only [parseLine, if_neg hc] at hp
      split at hp
      next v2 heq =>
        simp only [IniLine.prop.injEq] at hp
        obtain ⟨hk, hv⟩ := hp
        subst hk
        subst hv
        constructor
        · refine ⟨?_, ?_, ?_⟩
          · intro hmem
            rw [data_mk] at hmem
            exact hl ((List.takeWhile_sublist _).mem hmem)
          · intro hmem
            rw [data_mk] at hmem
            have := List.mem_takeWhile_imp hmem
            simp at this
          · rw [data_mk]
            rw [List.takeWhile_cons]
            by_cases hpc : ((c : Char) != '=') = true
            · rw [if_pos hpc]
              intro hhead
              simp only [List.head?_cons, Option.some.injEq] at hhead
              exact hc hhead
            · rw [if_neg hpc]
              intro hhead
              cases hhead
        · intro hmem
          rw [data_mk] at hmem
          have hsub : '\n' ∈ ('=' :: v2) := List.mem_cons_of_mem '=' hmem
          rw [← heq] at hsub
          exact hl ((List.dropWhile_sublist _).mem hsub)
      next =>
        cases hp

theorem parseLine_header_wf (l n : List Char) (hl : '\n' ∉ l)
    (hp : parseLine l = .header n) : WfName (String.mk n) := by
  cases l with
  | nil =>
    cases hp
  | cons c rest =>
    by_cases hc : c = '['
    · simp only [parseLine, if_pos hc] at hp
      by_cases hg : rest.getLast? = some ']'
      · rw [if_pos hg] at hp
        simp only [IniLine.header.injEq] at hp
        subst hp
        intro hmem
        rw [data_mk] at hmem
        exact hl (List.mem_cons_of_mem c ((List.dropLast_sublist _).mem hmem))
      · rw [if_neg hg] at hp
        cases hp
    · simp only [parseLine, if_neg hc] at hp
      split at hp
      next v2 heq =>
        cases hp
      next =>
        cases hp

theorem parseLinesAux_wf (ls : List (List Char)) : ∀ (acc doc : IniDoc),
    (∀ l ∈ ls, '\n' ∉ l) → WfDoc acc → parseLinesAux ls acc = .ok doc → WfDoc doc := by
  induction ls with
  | nil =>
    intro acc doc _ hacc h
    simp only [parseLinesAux, Except.ok.injEq] at h
    subst h
    exact hacc
  | cons l ls ih =>
    intro acc doc hln hacc h
    have hll : '\n' ∉ l := hln l (List.mem_cons_self _ _)
    have hls : ∀ x ∈ ls, '\n' ∉ x := fun x hx => hln x (List.mem_cons_of_mem _ hx)
    cases hpl : parseLine l with
    | blank =>
      simp only [parseLinesAux, hpl] at h
      exact ih acc doc hls hacc h
    | header n =>
      simp only [parseLinesAux, hpl] at h
      exact ih _ doc hls
        (wfDoc_append_section acc (String.mk n) hacc (parseLine_header_wf l n hll hpl)) h
    | prop k v =>
      simp only [parseLinesAux, hpl] at h
      obtain ⟨hk, hv⟩ := parseLine_prop_wf l k v hll hpl
      exact ih _ doc hls (wfDoc_addProp acc (String.mk k) (String.mk v) hacc hk hv) h
    | bad =>
      simp only [parseLinesAux, hpl] at h
      cases h

/-- Every successfully parsed document is well-formed. -/
theorem parseIni_wf (content : String) (doc : IniDoc) (h : parseIni content = .ok doc) :
    WfDoc doc := by
  refine parseLinesAux_wf (splitLines content.data) [(none, [])] doc
    (splitLines_no_newline content.data) ?_ h
  exact ⟨rfl, fun kv hkv => absurd hkv (by simp), fun sec hm => absurd hm (by simp)⟩


theorem iniGetSection_iniModify (doc : IniDoc) (σ : Option String)
    (f : List (String × String) → List (String × String)) :
    iniGetSection (iniModify doc σ f) σ = some (f ((iniGetSection doc σ).getD [])) := by
  induction doc with
  | nil =>
    simp [iniModify, iniGetSection, List.find?]
  | cons a t ih =>
    cases hbeq : (a.1 == σ) with
    | true =>
      simp [iniModify, iniGetSection, List.find?, hbeq]
    | false =>
      simp only [iniModify, hbeq, Bool.false_eq_true, if_false, iniGetSection, List.find?]
      simpa [iniGetSection] using ih

theorem iniGetSection_iniSet (doc : IniDoc) (σ : Option String) (k v : String) :
    iniGetSection (iniSet doc σ k v) σ
      = some (((iniGetSection doc σ).getD []).filter (fun kv => !(kv.1 == k)) ++ [(k, v)]) :=
  iniGetSection_iniModify doc σ _

theorem iniGetSection_iniAppend (doc : IniDoc) (σ : Option String) (k v : String)
    (ps : List (String × String)) (h : iniGetSection doc σ = some ps) :
    iniGetSection (iniAppend doc σ k v) σ = some (ps ++ [(k, v)]) := by
  induction doc with
  | nil =>
    simp [iniGetSection, List.find?] at h
  | cons a t ih =>
    cases hbeq : (a.1 == σ) with
    | true =>
      simp only [iniGetSection, List.find?, hbeq] at h
      simp only [Option.map_some', Option.some.injEq] at h
      subst h
      simp [iniAppend, iniGetSection, List.find?, hbeq]
    | false =>
      simp only [iniGetSection, List.find?, hbeq, Bool.false_eq_true] at h
      simp only [iniAppend, hbeq, Bool.false_eq_true, if_false, iniGetSection, List.find?]
      simpa [iniGetSection] using ih h

theorem iniGetSection_iniDelete (doc : IniDoc) (σ : Option String) (k : String)
    (ps : List (String × String)) (h : iniGetSection doc σ = some ps) :
    iniGetSection (iniDelete doc σ k) σ = some (ps.filter (fun kv => !(kv.1 == k))) := by
  induction doc with
  | nil =>
    simp [iniGetSection, List.find?] at h
  | cons a t ih =>
    cases hbeq : (a.1 == σ) with
    | true =>
      simp only [iniGetSection, List.find?, hbeq] at h
      simp only [Option.map_some', Option.some.injEq] at h
      subst h
      simp [iniDelete, iniGetSection, List.find?, hbeq]
    | false =>
      simp only [iniGetSection, List.find?, hbeq, Bool.false_eq_true] at h
      simp only [iniDelete, hbeq, Bool.false_eq_true, if_false, iniGetSection, List.find?]
      simpa [iniGetSection] using ih h


theorem wfTail_iniModify (n : String) (hn : WfName n)
    (f : List (String × String) → List (String × String))
    (hf : ∀ ps, (∀ kv ∈ ps, WfKey kv.1 ∧ WfVal kv.2) → ∀ kv ∈ f ps, WfKey kv.1 ∧ WfVal kv.2) :
    ∀ t : IniDoc, WfTail t → WfTail (iniModify t (some n) f) := by
  intro t
  induction t with
  | nil =>
    intro _ sec hm
    rcases List.mem_singleton.mp hm with rfl
    exact ⟨⟨n, rfl, hn⟩, hf [] (fun kv hkv => absurd hkv (by simp))⟩
  | cons a t ih =>
    intro h
    cases hbeq : (a.1 == some n) with
    | true =>
      simp only [iniModify, hbeq, if_true]
      intro sec hm
      rcases List.mem_cons.mp hm with rfl | hm2
      · obtain ⟨hname, hsec⟩ := h a (List.mem_cons_self _ _)
        exact ⟨hname, hf a.2 hsec⟩
      · exact h sec (List.mem_cons_of_mem _ hm2)
    | false =>
      simp only [iniModify, hbeq, Bool.false_eq_true, if_false]
      intro sec hm
      rcases List.mem_cons.mp hm with rfl | hm2
      · exact h sec (List.mem_cons_self _ _)
      · exact ih (fun s hs => h s (List.mem_cons_of_mem _ hs)) sec hm2

theorem wfDoc_iniSet (doc : IniDoc) (n k v : String) (hdoc : WfDoc doc)
    (hn : WfName n) (hk : WfKey k) (hv : WfVal v) : WfDoc (iniSet doc (some n) k v) := by
  cases doc with
  | nil => exact hdoc.elim
  | cons sec0 rest =>
    obtain ⟨nm0, ps0⟩ := sec0
    obtain ⟨h0, hsec0, htail⟩ := hdoc
    simp only at h0
    subst h0
    show WfDoc ((none, ps0) :: iniModify rest (some n) _)
    refine ⟨rfl, hsec0, ?_⟩
    refine wfTail_iniModify n hn _ ?_ rest htail
    intro ps hps kv hkv
    rcases List.mem_append.mp hkv with h2 | h2
    · exact hps kv (List.mem_of_mem_filter h2)
    · rcases List.mem_singleton.mp h2 with rfl
      exact ⟨hk, hv⟩

theorem wfTail_iniAppend (n k v : String) (hk : WfKey k) (hv : WfVal v) :
    ∀ t : IniDoc, WfTail t → WfTail (iniAppend t (some n) k v) := by
  intro t
  induction t with
  | nil =>
    intro h sec hm
    cases hm
  | cons a t ih =>
    intro h
    cases hbeq : (a.1 == some n) with
    | true =>
      simp only [iniAppend, hbeq, if_true]
      intro sec hm
      rcases List.mem_cons.mp hm with rfl | hm2
      · obtain ⟨hname, hsec⟩ := h a (List.mem_cons_self _ _)
        refine ⟨hname, ?_⟩
        intro kv hkv
        rcases List.mem_append.mp hkv with h2 | h2
        · exact hsec kv h2
        · rcases List.mem_singleton.mp h2 with rfl
          exact ⟨hk, hv⟩
      · exact h sec (List.mem_cons_of_mem _ hm2)
    | false =>
      simp only [iniAppend, hbeq, Bool.false_eq_true, if_false]
      intro sec hm
      rcases List.mem_cons.mp hm with rfl | hm2
      · exact h sec (List.mem_cons_self _ _)
      · exact ih (fun s hs => h s (List.mem_cons_of_mem _ hs)) sec hm2

theorem wfDoc_iniAppend (doc : IniDoc) (n k v : String) (hdoc : WfDoc doc)
    (hk : WfKey k) (hv : WfVal v) : WfDoc (iniAppend doc (some n) k v) := by
  cases doc with
  | nil => exact hdoc.elim
  | cons sec0 rest =>
    obtain ⟨nm0, ps0⟩ := sec0
    obtain ⟨h0, hsec0, htail⟩ := hdoc
    simp only at h0
    subst h0
    show WfDoc ((none, ps0) :: iniAppend rest (some n) k v)
    exact ⟨rfl, hsec0, wfTail_iniAppend n k v hk hv rest htail⟩

theorem wfTail_iniDelete (n k : String) :
    ∀ t : IniDoc, WfTail t → WfTail (iniDelete t (some n) k) := by
  intro t
  induction t with
  | nil =>
    intro h sec hm
    cases hm
  | cons a t ih =>
    intro h
    cases hbeq : (a.1 == some n) with
    | true =>
      simp only [iniDelete, hbeq, if_true]
      intro sec hm
      rcases List.mem_cons.mp hm with rfl | hm2
      · obtain ⟨hname, hsec⟩ := h a (List.mem_cons_self _ _)
        exact ⟨hname, fun kv hkv => hsec kv (List.mem_of_mem_filter hkv)⟩
      · exact h sec (List.mem_cons_of_mem _ hm2)
    | false =>
      simp only [iniDelete, hbeq, Bool.false_eq_true, if_false]
      intro sec hm
      rcases List.mem_cons.mp hm with rfl | hm2
      · exact h sec (List.mem_cons_self _ _)
      · exact ih (fun s hs => h s (List.mem_cons_of_mem _ hs)) sec hm2

theorem wfDoc_iniDelete (doc : IniDoc) (n k : String) (hdoc : WfDoc doc) :
    WfDoc (iniDelete doc (some n) k) := by
  cases doc with
  | nil => exact hdoc.elim
  | cons sec0 rest =>
    obtain ⟨nm0, ps0⟩ := sec0
    obtain ⟨h0, hsec0, htail⟩ := hdoc
    simp only at h0
    subst h0
    show WfDoc ((none, ps0) :: iniDelete rest (some n) k)
    exact ⟨rfl, hsec0, wfTail_iniDelete n k rest htail⟩

theorem wfDoc_appendIniPipeline (doc : IniDoc) (s k v : String) (hdoc : WfDoc doc)
    (hs : WfName s) (hk : WfKey k) (hv : WfVal v) :
    WfDoc (appendIniPipeline doc s k v) :=
  wfDoc_iniDelete _ s "dummy"
    (wfDoc_iniAppend _ s k v
      (wfDoc_iniSet doc s "dummy" "dummy" hdoc hs (by decide) (by decide)) hk hv)

theorem appendIniPipeline_props (doc : IniDoc) (s k v : String) :
    iniGetSection (appendIniPipeline doc s k v) (some s)
      = some (((((iniGetSection doc (some s)).getD []).filter (fun kv => !(kv.1 == "dummy"))
            ++ [("dummy", "dummy")]) ++ [(k, v)]).filter (fun kv => !(kv.1 == "dummy"))) := by
  unfold appendIniPipeline
  have h1 := iniGetSection_iniSet doc (some s) "dummy" "dummy"
  have h2 := iniGetSection_iniAppend _ (some s) k v _ h1
  exact iniGetSection_iniDelete _ (some s) "dummy" _ h2


theorem append_ini_entry_eq_ok (fs : FS) (params : AppendIniEntry) (bd content : String)
    (doc : IniDoc)
    (hread : fs.read params.path = some content)
    (hnc : bd ++ "/" ++ sha256Hex content ≠ params.path)
    (hparse : parseIni content = .ok doc) :
    append_ini_entry fs params bd
      = .ok ((fs.write (bd ++ "/" ++ sha256Hex content) content).write params.path
              (serializeIni (appendIniPipeline doc params.section_ params.key params.value)))
            (.restoreFromBackup (bd ++ "/" ++ sha256Hex content) params.path) := by
  simp only [append_ini_entry, backup_file, hread]
  rw [FS.read_write_of_ne fs (bd ++ "/" ++ sha256Hex content) content params.path
    (fun h => hnc h.symm), hread]
  simp only [hparse]
  rw [iniGetSection_iniSet doc (some params.section_) "dummy" "dummy"]
  simp [appendIniPipeline]

/-- **C5 counterexample.**  With the key literally named `dummy`, the
create-section trick erases both the pre-existing value `V1` and the
appended value `V2`: the resulting file has an empty section, refuting
the claim that the resulting file always contains both the old and the
new value. -/
theorem append_dummy_key_counterexample :
    append_ini_entry ⟨[("cfg", "[s]\ndummy=V1\n")]⟩ ⟨"cfg", "s", "dummy", "V2"⟩ "bk"
      = .ok ⟨[("cfg", "[s]\n"),
              ("bk/00005b00007300005d00000a00006400007500006d00006d00007900003d00005600003100000a", "[s]\ndummy=V1\n")]⟩
          (.restoreFromBackup "bk/00005b00007300005d00000a00006400007500006d00006d00007900003d00005600003100000a" "cfg") ∧
    parseIni "[s]\n" = .ok [(none, []), (some "s", [])] ∧
    iniGetSection [(none, []), (some "s", [])] (some "s") = some [] :=
  ⟨by decide, by decide, by decide⟩

/-- **C5 (amended).**  For every AppendIniEntry on a parseable INI file,
provided the key is not the literal reserved name `dummy` (and section
name, key and value are writable INI text), the resulting file contains
every prior value stored under the key in the target section together
with the newly appended value, and the target section exists in the
result (created when absent). -/
theorem append_preserves_existing_values (fs : FS) (params : AppendIniEntry)
    (bd content : String) (doc : IniDoc)
    (hread : fs.read params.path = some content)
    (hnc : bd ++ "/" ++ sha256Hex content ≠ params.path)
    (hparse : parseIni content = .ok doc)
    (hkey : params.key ≠ "dummy")
    (hs : WfName params.section_) (hk : WfKey params.key) (hv : WfVal params.value) :
    ∃ fs' r newContent doc' props',
      append_ini_entry fs params bd = .ok fs' r ∧
      fs'.read params.path = some newContent ∧
      parseIni newContent = .ok doc' ∧
      iniGetSection doc' (some params.section_) = some props' ∧
      (params.key, params.value) ∈ props' ∧
      (∀ ps w, iniGetSection doc (some params.section_) = some ps →
        (params.key, w) ∈ ps → (params.key, w) ∈ props') := by
  have hok := append_ini_entry_eq_ok fs params bd content doc hread hnc hparse
  have hwf : WfDoc (appendIniPipeline doc params.section_ params.key params.value) :=
    wfDoc_appendIniPipeline doc params.section_ params.key params.value
      (parseIni_wf content doc hparse) hs hk hv
  have hbne : (params.key == "dummy") = false := beq_eq_false_iff_ne.mpr hkey
  refine ⟨_, _, serializeIni (appendIniPipeline doc params.section_ params.key params.value),
    appendIniPipeline doc params.section_ params.key params.value, _,
    hok, FS.read_write_self _ _ _, parse_serialize _ hwf,
    appendIniPipeline_props doc params.section_ params.key params.value, ?_, ?_⟩
  · refine List.mem_filter.mpr ⟨?_, ?_⟩
    · exact List.mem_append.mpr (Or.inr (List.mem_singleton.mpr rfl))
    · simpa using hbne
  · intro ps w hsec hmem
    rw [hsec] at *
    refine List.mem_filter.mpr ⟨?_, ?_⟩
    · refine List.mem_append.mpr (Or.inl (List.mem_append.mpr (Or.inl ?_)))
      refine List.mem_filter.mpr ⟨?_, ?_⟩
      · simpa using hmem
      · simpa using hbne
    · simpa using hbne

theorem append_preserves_existing_values_witness :
    ∃ fs' r newContent doc' props',
      append_ini_entry ⟨[("cfg", "[s]\nk=V1\n")]⟩ ⟨"cfg", "s", "k", "V2"⟩ "bk" = .ok fs' r ∧
      fs'.read "cfg" = some newContent ∧
      parseIni newContent = .ok doc' ∧
      iniGetSection doc' (some "s") = some props' ∧
      ("k", "V2") ∈ props' ∧
      (∀ ps w, iniGetSection [(none, []), (some "s", [("k", "V1")])] (some "s") = some ps →
        (("k" : String), w) ∈ ps → (("k" : String), w) ∈ props') :=
  append_preserves_existing_values ⟨[("cfg", "[s]\nk=V1\n")]⟩ ⟨"cfg", "s", "k", "V2"⟩
    "bk" "[s]\nk=V1\n" [(none, []), (some "s", [("k", "V1")])]
    rfl (by decide) rfl (by decide) (by decide) (by decide) (by decide)


/-- **C10.**  For every AppendIniEntry on a parseable INI file whose
target section already holds an entry under the literal key `dummy`,
the resulting file has no `dummy` entry at all in that section: the
create-section trick sets and then deletes the key `dummy`, destroying
the pre-existing values stored under that name. -/
theorem append_destroys_dummy_entries (fs : FS) (params : AppendIniEntry)
    (bd content : String) (doc : IniDoc) (ps0 : List (String × String)) (w0 : String)
    (hread : fs.read params.path = some content)
    (hnc : bd ++ "/" ++ sha256Hex content ≠ params.path)
    (hparse : parseIni content = .ok doc)
    (hsec : iniGetSection doc (some params.section_) = some ps0)
    (hd : ("dummy", w0) ∈ ps0)
    (hs : WfName params.section_) (hk : WfKey params.key) (hv : WfVal params.value) :
    ∃ fs' r newContent doc' props',
      append_ini_entry fs params bd = .ok fs' r ∧
      fs'.read params.path = some newContent ∧
      parseIni newContent = .ok doc' ∧
      iniGetSection doc' (some params.section_) = some props' ∧
      ∀ w, ("dummy", w) ∉ props' := by
  have hok := append_ini_entry_eq_ok fs params bd content doc hread hnc hparse
  have hwf : WfDoc (appendIniPipeline doc params.section_ params.key params.value) :=
    wfDoc_appendIniPipeline doc params.section_ params.key params.value
      (parseIni_wf content doc hparse) hs hk hv
  refine ⟨_, _, serializeIni (appendIniPipeline doc params.section_ params.key params.value),
    appendIniPipeline doc params.section_ params.key params.value, _,
    hok, FS.read_write_self _ _ _, parse_serialize _ hwf,
    appendIniPipeline_props doc params.section_ params.key params.value, ?_⟩
  intro w hmem
  have hpred := (List.mem_filter.mp hmem).2
  simp at hpred

theorem append_destroys_dummy_entries_witness :
    ∃ fs' r newContent doc' props',
      append_ini_entry ⟨[("cfg", "[s]\ndummy=old\n")]⟩ ⟨"cfg", "s", "k", "v"⟩ "bk"
        = .ok fs' r ∧
      fs'.read "cfg" = some newContent ∧
      parseIni newContent = .ok doc' ∧
      iniGetSection doc' (some "s") = some props' ∧
      ∀ w, (("dummy" : String), w) ∉ props' :=
  append_destroys_dummy_entries ⟨[("cfg", "[s]\ndummy=old\n")]⟩ ⟨"cfg", "s", "k", "v"⟩
    "bk" "[s]\ndummy=old\n" [(none, []), (some "s", [("dummy", "old")])]
    [("dummy", "old")] "old"
    rfl (by decide) rfl rfl (by decide) (by decide) (by decide) (by decide)

/-- **C6.**  For every INI file whose first line is `key="value"` (a
quoted value in the unnamed general section), applying AppendIniEntry
for a named section leaves the first line of the rewritten file
byte-for-byte unchanged: the quotes are not stripped by the unrelated
edit. -/
theorem append_preserves_first_line (fs : FS) (params : AppendIniEntry)
    (bd content : String) (ps2 : List (String × String)) (docRest : IniDoc)
    (hread : fs.read params.path = some content)
    (hnc : bd ++ "/" ++ sha256Hex content ≠ params.path)
    (hparse : parseIni content = .ok ((none, ("key", "\"value\"") :: ps2) :: docRest)) :
    ∃ fs' r newContent t,
      append_ini_entry fs params bd = .ok fs' r ∧
      fs'.read params.path = some newContent ∧
      newContent.data = ("key=\"value\"\n").data ++ t := by
  have hok := append_ini_entry_eq_ok fs params bd content _ hread hnc hparse
  exact ⟨_, _, _, _, hok, FS.read_write_self _ _ _, rfl⟩

theorem append_preserves_first_line_witness :
    ∃ fs' r newContent t,
      append_ini_entry ⟨[("cfg", "key=\"value\"\n")]⟩ ⟨"cfg", "test", "other_key", "other_value"⟩
        "bk" = .ok fs' r ∧
      fs'.read "cfg" = some newContent ∧
      newContent.data = ("key=\"value\"\n").data ++ t :=
  append_preserves_first_line ⟨[("cfg", "key=\"value\"\n")]⟩
    ⟨"cfg", "test", "other_key", "other_value"⟩ "bk" "key=\"value\"\n" [] []
    rfl (by decide) rfl

end Renom
